import Mathlib

/-
Verification of the directory-manager and metadata-schema behaviour of the
image-archive utility (src/imagearchive.py, src/imagearchive/core.py).

The filesystem is modelled as a finite tree of named entries.  Paths are
lists of path components; an absolute path such as /home/d is the list of
its components.  The tree itself is accessed by raw structural functions
(lookupRaw, modifyAtRaw); the paths handed to the operating system are
first resolved: a dot component is dropped and a double-dot component pops
the previous component, as the kernel does on an absolute path, so lookup
and modifyAt resolve their path before descending.  A symbolic link is
followed one step where the python code makes the operating system follow
it (os.listdir, shutil.copy); link chains and link-relative targets are
not modelled.  A per-entry deletion failure (permission error) is
abstracted by a predicate prot on the literally joined paths the code
builds: deleting a protected entry raises, deleting an unprotected one
succeeds.  Python exceptions are modelled by an error component carried
next to the (never rolled back) filesystem state.
-/

namespace ImageArchive

/-- A node of the filesystem tree: a regular file with its content, a
symbolic link with its target string, a gzipped tar archive file carrying
the entry list that was archived into it, or a directory with its named
entries. -/
inductive FSNode where
  | file (content : String)
  | symlink (target : String)
  | tar (entries : List (String × FSNode))
  | dir (entries : List (String × FSNode))

abbrev Entries := List (String × FSNode)

/-- Association lookup of a directory entry by name. -/
def assocFind : Entries → String → Option FSNode
  | [], _ => none
  | e :: rest, c => if e.1 = c then some e.2 else assocFind rest c

/-- Remove every binding of a name from a directory entry list
(os.unlink / shutil.rmtree of that entry). -/
def eraseName : Entries → String → Entries
  | [], _ => []
  | e :: rest, c => if e.1 = c then eraseName rest c else e :: eraseName rest c

/-- Create or overwrite a binding in a directory entry list (writing a file
into a directory). -/
def upsert : Entries → String → FSNode → Entries
  | [], c, m => [(c, m)]
  | e :: rest, c, m => if e.1 = c then (c, m) :: rest else e :: upsert rest c m

/-- Raw resolution of an already-resolved path from a node; none when the
path does not exist. -/
def lookupRaw : FSNode → List String → Option FSNode
  | n, [] => some n
  | .dir es, c :: cs => (assocFind es c).bind fun m => lookupRaw m cs
  | _, _ :: _ => none

/-- Raw application of a function to the node at an already-resolved path,
leaving the tree unchanged when the path does not exist. -/
def modifyAtRaw : FSNode → List String → (FSNode → FSNode) → FSNode
  | n, [], f => f n
  | .dir es, c :: cs, f => .dir (es.map fun e => if e.1 = c then (e.1, modifyAtRaw e.2 cs f) else e)
  | n, _ :: _, _ => n

/-- Kernel resolution of the dot components of an absolute path: a dot
component is dropped, a double-dot component pops the previous component
(at the root, double-dot stays at the root). -/
def resolvePath (p : List String) : List String :=
  p.foldl (fun acc c => if c = "." then acc else if c = ".." then acc.dropLast else acc ++ [c]) []

/-- Resolve a path from a node, resolving dot components as the kernel
does; none when the path does not exist. -/
def lookup (n : FSNode) (p : List String) : Option FSNode :=
  lookupRaw n (resolvePath p)

/-- Apply a function to the node at a path, resolving dot components as
the kernel does, leaving the tree unchanged when the path does not
exist. -/
def modifyAt (n : FSNode) (p : List String) (f : FSNode → FSNode) : FSNode :=
  modifyAtRaw n (resolvePath p) f

/-- Erase one named entry of a directory node. -/
def eraseNode (n : FSNode) (c : String) : FSNode :=
  match n with
  | .dir es => .dir (eraseName es c)
  | other => other

/-- Create or overwrite the named entry of the directory at an
already-resolved dirPath. -/
def writeInDirRaw (root : FSNode) (dirPath : List String) (c : String) (m : FSNode) : FSNode :=
  modifyAtRaw root dirPath fun n =>
    match n with
    | .dir es => .dir (upsert es c m)
    | other => other

/-- Create or overwrite the named entry of the directory at dirPath,
resolving the directory path as the kernel does. -/
def writeInDir (root : FSNode) (dirPath : List String) (c : String) (m : FSNode) : FSNode :=
  writeInDirRaw root (resolvePath dirPath) c m

/-- Split a path string into its nonempty slash-separated components
(auxiliary accumulator recursion). -/
def splitSlashAux : List Char → List Char → List String
  | [], cur => [String.mk cur.reverse]
  | c :: cs, cur => if c = '/' then String.mk cur.reverse :: splitSlashAux cs [] else splitSlashAux cs (c :: cur)

/-- Path components of a path string, empty components dropped. -/
def splitSlash (s : String) : List String :=
  (splitSlashAux s.data []).filter fun c => c != ""

/-- Whether a path string is absolute (starts with a slash). -/
def startsWithSlash (s : String) : Bool :=
  match s.data with
  | '/' :: _ => true
  | _ => false

/-- String suffix test (str.endswith). -/
def strEndsWith (s suf : String) : Bool :=
  suf.data.isSuffixOf s.data

/-- os.path.join of a base directory (as components) and a further path
string: a literal string join, an absolute second argument discards the
base; dot components are kept literally, as os.path.join keeps them, and
are resolved only when the joined path reaches the operating system. -/
def ospathJoin (base : List String) (rel : String) : List String :=
  if startsWithSlash rel then splitSlash rel else base ++ splitSlash rel

/-- Python exceptions that the modelled code can raise or handle. -/
inductive PyErr where
  | fileNotFound
  | notADirectory
  | isADirectory
  | permission
  | valueError
  deriving DecidableEq, Repr

/-- Python values passed as the content argument: a string, an integer, or
a list. -/
inductive PyVal where
  | pystr (s : String)
  | pyint (n : Int)
  | pylist (xs : List PyVal)

/-- Python iteration (iter(x)): lists yield their elements, strings yield
their characters as one-character strings, integers raise TypeError
(modelled as none). -/
def pyIter : PyVal → Option (List PyVal)
  | .pylist xs => some xs
  | .pystr s => some (s.data.map fun c => PyVal.pystr (String.mk [c]))
  | .pyint _ => none

/-- remove_content(absolute_path) from src/imagearchive.py.  The kernel
resolves the dot components of the path; os.listdir then follows a final
symbolic link: on a directory (or a link to one) every listed entry is
unlinked (file or symlink) or rmtree-removed (directory), catching and
logging any per-entry failure and continuing, the failures being keyed by
the literally joined file_path the code builds; on a link to a directory
the target is emptied through the link and the link itself survives; a
link to a non-directory raises NotADirectoryError, caught, and the link
itself is unlinked; a broken link or a missing path propagates
FileNotFoundError from os.listdir (only NotADirectoryError is handled
there); a plain non-directory path is itself unlinked.  prot marks
entries whose deletion fails; a failed deletion leaves the entry in
place; link chains are followed one step only. -/
def remove_content (prot : List String → Bool) (root : FSNode) (p : List String) :
    FSNode × Option PyErr :=
  let rp := resolvePath p
  match lookupRaw root rp with
  | none => (root, some .fileNotFound)
  | some (.dir es) =>
      let es2 := es.foldl (fun acc e => if prot (p ++ [e.1]) then acc else eraseName acc e.1) es
      (modifyAtRaw root rp (fun _ => .dir es2), none)
  | some (.symlink t) =>
      match lookupRaw root (resolvePath (splitSlash t)) with
      | some (.dir tes) =>
          let tes2 := tes.foldl (fun acc e => if prot (p ++ [e.1]) then acc else eraseName acc e.1) tes
          (modifyAtRaw root (resolvePath (splitSlash t)) (fun _ => .dir tes2), none)
      | some _ =>
          if prot p then (root, some .permission)
          else (modifyAtRaw root rp.dropLast (fun n => eraseNode n (rp.getLastD "")), none)
      | none => (root, some .fileNotFound)
  | some _ =>
      if prot p then (root, some .permission)
      else (modifyAtRaw root rp.dropLast (fun n => eraseNode n (rp.getLastD "")), none)

/-- The loop body of Directory.empty_some: iterate the already-materialised
items, joining each to the directory root and removing it; a non-string
item makes os.path.join raise TypeError, which the surrounding handler
turns into ValueError; errors out of remove_content propagate and stop the
iteration with the state reached so far. -/
def emptySomeGo (prot : List String → Bool) (base : List String) :
    List PyVal → FSNode → FSNode × Option PyErr
  | [], root => (root, none)
  | x :: xs, root =>
    match x with
    | .pystr s =>
      match remove_content prot root (ospathJoin base s) with
      | (root2, none) => emptySomeGo prot base xs root2
      | (root2, some e) => (root2, some e)
    | _ => (root, some .valueError)

/-- Directory.empty_some(content): iterating a non-iterable raises
TypeError, caught and re-raised as ValueError before any removal. -/
def empty_some (prot : List String → Bool) (root : FSNode) (abspath : List String)
    (content : PyVal) : FSNode × Option PyErr :=
  match pyIter content with
  | none => (root, some .valueError)
  | some items => emptySomeGo prot abspath items root

/-- Directory.empty_all: remove_content on the directory root. -/
def empty_all (prot : List String → Bool) (root : FSNode) (abspath : List String) :
    FSNode × Option PyErr :=
  remove_content prot root abspath

/-- shutil.copy(src, dst) with dst the destination directory: copies the
regular file at src into dst under its basename, overwriting an existing
file; a missing source raises FileNotFoundError; a directory source fails
when shutil opens it for reading, with IsADirectoryError; when the
destination directory already holds a directory under the source
basename, opening the destination for writing fails with
IsADirectoryError and nothing is copied; a symbolic link source is
followed one step and the pointed-to content is copied. -/
def shutil_copy (root : FSNode) (src : List String) (dstDir : List String) :
    FSNode × Option PyErr :=
  match lookup root src with
  | none => (root, some .fileNotFound)
  | some (.dir _) => (root, some .isADirectory)
  | some (.symlink t) =>
      match lookup root (splitSlash t) with
      | some (.file c) =>
          match lookup root (dstDir ++ [src.getLastD ""]) with
          | some (.dir _) => (root, some .isADirectory)
          | _ => (writeInDir root dstDir (src.getLastD "") (.file c), none)
      | some (.tar es) =>
          match lookup root (dstDir ++ [src.getLastD ""]) with
          | some (.dir _) => (root, some .isADirectory)
          | _ => (writeInDir root dstDir (src.getLastD "") (.tar es), none)
      | some _ => (root, some .isADirectory)
      | none => (root, some .fileNotFound)
  | some leaf =>
      match lookup root (dstDir ++ [src.getLastD ""]) with
      | some (.dir _) => (root, some .isADirectory)
      | _ => (writeInDir root dstDir (src.getLastD "") leaf, none)

/-- The loop body of Directory.fetch_some_from: for each item, shutil.copy
the path joined under the source root into the destination root; a
non-string item makes os.path.join raise TypeError, re-raised as
ValueError; copy errors propagate and stop the iteration. -/
def fetchSomeGo (srcBase dstDir : List String) :
    List PyVal → FSNode → FSNode × Option PyErr
  | [], root => (root, none)
  | x :: xs, root =>
    match x with
    | .pystr s =>
      match shutil_copy root (ospathJoin srcBase s) dstDir with
      | (root2, none) => fetchSomeGo srcBase dstDir xs root2
      | (root2, some e) => (root2, some e)
    | _ => (root, some .valueError)

/-- Directory.fetch_some_from(src_directory, content): the Directory whose
root is dstDir copies the named paths from srcDir; a non-iterable content
raises TypeError, caught and re-raised as ValueError before any copy. -/
def fetch_some_from (root : FSNode) (dstDir srcDir : List String) (content : PyVal) :
    FSNode × Option PyErr :=
  match pyIter content with
  | none => (root, some .valueError)
  | some items => fetchSomeGo srcDir dstDir items root

mutual

/-- Merge (distutils.dir_util.copy_tree body) of the source entry list into
a destination entry list: recurse into directories, overwrite leaves. -/
def mergeInto : Entries → Entries → Entries
  | des, [] => des
  | des, e :: rest => mergeInto (mergeOne des e.1 e.2) rest

/-- Merge a single named source node into a destination entry list. -/
def mergeOne (des : Entries) (c : String) : FSNode → Entries
  | .dir ses =>
      match assocFind des c with
      | some (.dir ds) => upsert des c (.dir (mergeInto ds ses))
      | _ => upsert des c (.dir (mergeInto [] ses))
  | leaf => upsert des c leaf

end

/-- Directory.fetch_all_from(src_directory): distutils.dir_util.copy_tree
from the source root into this root, preserving relative structure and
overwriting files; a missing or non-directory source raises. -/
def fetch_all_from (root : FSNode) (dstDir srcDir : List String) :
    FSNode × Option PyErr :=
  match lookup root srcDir with
  | some (.dir ses) =>
      (modifyAt root dstDir (fun n =>
        match n with
        | .dir des => .dir (mergeInto des ses)
        | other => other), none)
  | some _ => (root, some .notADirectory)
  | none => (root, some .fileNotFound)

/-- A wall-clock time at one-second resolution (datetime.now()). -/
structure Timestamp where
  year : Nat
  month : Nat
  day : Nat
  hour : Nat
  minute : Nat
  second : Nat

/-- Zero-padding to two digits, as strftime does for the month, day,
hour, minute and second fields. -/
def pad2 (n : Nat) : String :=
  if n < 10 then "0" ++ toString n else toString n

/-- Zero-padding to four digits, as strftime does for the year field. -/
def pad4 (n : Nat) : String :=
  if n < 10 then "000" ++ toString n
  else if n < 100 then "00" ++ toString n
  else if n < 1000 then "0" ++ toString n
  else toString n

/-- datetime.strftime with format %F-%H%M%S, e.g. 2020-04-21-132052. -/
def timestampFmt (ts : Timestamp) : String :=
  pad4 ts.year ++ "-" ++ pad2 ts.month ++ "-" ++ pad2 ts.day ++ "-"
    ++ pad2 ts.hour ++ pad2 ts.minute ++ pad2 ts.second

/-- The archive filename built by create_tar_archive:
timestamp-basename.tar.gz. -/
def archiveName (now : Timestamp) (abspath : List String) : String :=
  timestampFmt now ++ "-" ++ abspath.getLastD "" ++ ".tar.gz"

/-- The archive-internal top-level entry name: timestamp-basename. -/
def arcRootName (now : Timestamp) (abspath : List String) : String :=
  timestampFmt now ++ "-" ++ abspath.getLastD ""

/-- Directory.create_tar_archive(outdir): the archive file
timestamp-basename.tar.gz is created in outdir when an outdir Directory is
given (outdir.abspath), else AttributeError on None routes it into the
Directory itself; tarfile.open fails when that filename is an existing
directory; tar.add(self.abspath, arcname=timestamp-basename) then archives
the whole tree, and tarfile skips the archive file it is itself writing,
so the archived entries are the tree as of the call; the path of the
created archive is returned.  none models a propagating I/O error (missing
directory or unwritable target). -/
def create_tar_archive (now : Timestamp) (root : FSNode) (abspath : List String)
    (outdir : Option (List String)) : Option (FSNode × List String) :=
  let tar_archive_name := archiveName now abspath
  let outP := outdir.getD abspath
  let tar_archive_abspath := outP ++ [tar_archive_name]
  match lookup root abspath, lookup root outP with
  | some (.dir es), some (.dir _) =>
      match lookup root tar_archive_abspath with
      | some (.dir _) => none
      | _ => some (writeInDir root outP tar_archive_name
                     (.tar [(arcRootName now abspath, .dir es)]),
                   tar_archive_abspath)
  | _, _ => none

/-- Directory.remove_tar_archive: scan the top-level entries and os.remove
every name ending in .tar.gz; os.remove of a directory with such a name
raises IsADirectoryError, stopping the scan with the removals made so
far. -/
def remove_tar_archive (root : FSNode) (abspath : List String) :
    FSNode × Option PyErr :=
  match lookup root abspath with
  | some (.dir es) =>
      let res := es.foldl (fun (acc : Entries × Option PyErr) e =>
        match acc.2 with
        | some _ => acc
        | none =>
          if strEndsWith e.1 ".tar.gz" then
            match e.2 with
            | .dir _ => (acc.1, some PyErr.isADirectory)
            | _ => (eraseName acc.1 e.1, none)
          else acc) (es, none)
      (modifyAt root abspath (fun _ => .dir res.1), res.2)
  | some _ => (root, some .notADirectory)
  | none => (root, some .fileNotFound)

/-- The directory at a path exists (it is a directory node). -/
def isDirAt (root : FSNode) (p : List String) : Prop :=
  ∃ es, lookup root p = some (FSNode.dir es)

mutual

/-- A tree without symbolic link nodes (archive files count as regular
files). -/
def symlinkFree : FSNode → Bool
  | .file _ => true
  | .symlink _ => false
  | .tar _ => true
  | .dir es => symlinkFreeList es

/-- All nodes of an entry list are free of symbolic links. -/
def symlinkFreeList : Entries → Bool
  | [] => true
  | e :: rest => symlinkFree e.2 && symlinkFreeList rest

end

/-- An Author row of the declarative schema (src/imagearchive/core.py):
integer primary key author_id, plus name, email, organization strings. -/
structure Author where
  author_id : Nat
  name : String
  email : String
  organization : String

/-- The declared table constraint of Author:
UniqueConstraint with columns name and organization
(uix_author_name_and_organization). -/
def authorUniqueConstraintColumns : List String := ["name", "organization"]

/-- Column access on an Author row by column name. -/
def authorColumnValue (a : Author) (c : String) : Option String :=
  match c with
  | "name" => some a.name
  | "email" => some a.email
  | "organization" => some a.organization
  | _ => none

/-- Database-side failures visible to the schema. -/
inductive DBError where
  | uniqueViolation
  deriving DecidableEq

/-- Modelled from the spec: the relational engine enforcing the declared
UniqueConstraint is an external collaborator (the spec storage contract of
section 6 requires a uniqueness constraint over a column pair); an insert
whose values on the declared unique columns coincide with an existing row
fails with a constraint violation, otherwise the row is appended. -/
def insertAuthor (table : List Author) (a : Author) : Except DBError (List Author) :=
  if table.any (fun b => authorUniqueConstraintColumns.all
      (fun c => decide (authorColumnValue b c = authorColumnValue a c)))
  then .error .uniqueViolation
  else .ok (table ++ [a])

theorem assocFind_eraseName_self (es : Entries) (c : String) :
    assocFind (eraseName es c) c = none := by
  induction es with
  | nil => rfl
  | cons e rest ih =>
    obtain ⟨a, v⟩ := e
    by_cases h : a = c
    · simpa [eraseName, h] using ih
    · simp [eraseName, h, assocFind, ih]

theorem assocFind_eraseName_ne (es : Entries) {c c' : String} (h : c' ≠ c) :
    assocFind (eraseName es c) c' = assocFind es c' := by
  induction es with
  | nil => rfl
  | cons e rest ih =>
    obtain ⟨a, v⟩ := e
    have h1 : ¬c = c' := fun hc => h hc.symm
    by_cases he : a = c
    · subst he
      simp [eraseName, assocFind, h1, ih]
    · simp [eraseName, he, assocFind, ih]

theorem assocFind_upsert_self (es : Entries) (c : String) (m : FSNode) :
    assocFind (upsert es c m) c = some m := by
  induction es with
  | nil => simp [upsert, assocFind]
  | cons e rest ih =>
    obtain ⟨a, v⟩ := e
    by_cases h : a = c
    · simp [upsert, h, assocFind]
    · simp [upsert, h, assocFind, ih]

theorem assocFind_upsert_ne (es : Entries) {c c' : String} (m : FSNode) (h : c' ≠ c) :
    assocFind (upsert es c m) c' = assocFind es c' := by
  have h1 : ¬c = c' := fun hc => h hc.symm
  induction es with
  | nil => simp [upsert, assocFind, h1]
  | cons e rest ih =>
    obtain ⟨a, v⟩ := e
    by_cases he : a = c
    · subst he
      simp [upsert, assocFind, h1]
    · simp [upsert, he, assocFind, ih]

theorem assocFind_map_upd (es : Entries) (c : String) (h : String × FSNode → FSNode) :
    assocFind (es.map fun e => if e.1 = c then (e.1, h e) else e) c
      = (assocFind es c).map fun v => h (c, v) := by
  induction es with
  | nil => rfl
  | cons e rest ih =>
    obtain ⟨a, v⟩ := e
    by_cases ha : a = c
    · subst ha
      simp [assocFind]
    · simp [assocFind, ha, ih]

theorem assocFind_map_upd_ne (es : Entries) {c c' : String} (h : String × FSNode → FSNode)
    (hne : c' ≠ c) :
    assocFind (es.map fun e => if e.1 = c then (e.1, h e) else e) c'
      = assocFind es c' := by
  have h1 : ¬c = c' := fun hc => hne hc.symm
  induction es with
  | nil => rfl
  | cons e rest ih =>
    obtain ⟨a, v⟩ := e
    by_cases ha : a = c
    · subst ha
      simp [assocFind, h1, ih]
    · simp [assocFind, ha, ih]

theorem assocFind_eq_none_of_names (es : Entries) (c : String)
    (h : ∀ x ∈ es, x.1 ≠ c) : assocFind es c = none := by
  induction es with
  | nil => rfl
  | cons e rest ih =>
    have h1 : e.1 ≠ c := h e (List.mem_cons_self e rest)
    simp [assocFind, h1]
    exact ih fun x hx => h x (List.mem_cons_of_mem e hx)

theorem mem_eraseName (es : Entries) (c : String) (x : String × FSNode) :
    x ∈ eraseName es c → x ∈ es ∧ x.1 ≠ c := by
  induction es with
  | nil => intro h; cases h
  | cons e rest ih =>
    intro hx
    by_cases he : e.1 = c
    · simp only [eraseName, if_pos he] at hx
      rcases ih hx with ⟨h1, h2⟩
      exact ⟨List.mem_cons_of_mem e h1, h2⟩
    · simp only [eraseName, if_neg he] at hx
      rcases List.mem_cons.mp hx with h | h
      · exact ⟨by rw [h]; exact List.mem_cons_self e rest, by rw [h]; exact he⟩
      · rcases ih h with ⟨h1, h2⟩
        exact ⟨List.mem_cons_of_mem e h1, h2⟩

theorem lookupRaw_nil (n : FSNode) : lookupRaw n [] = some n := by
  cases n <;> rfl

theorem lookupRaw_cons_dir (es : Entries) (c : String) (cs : List String) :
    lookupRaw (.dir es) (c :: cs) = (assocFind es c).bind fun m => lookupRaw m cs := rfl

theorem lookupRaw_append (p : List String) (root : FSNode) (q : List String) :
    lookupRaw root (p ++ q) = (lookupRaw root p).bind fun m => lookupRaw m q := by
  induction p generalizing root with
  | nil => simp [lookupRaw]
  | cons c cs ih =>
    cases root with
    | dir es =>
      cases hf : assocFind es c with
      | none => simp [lookupRaw, hf]
      | some m => simp [lookupRaw, hf, ih]
    | file s => simp [lookupRaw]
    | symlink s => simp [lookupRaw]
    | tar es => simp [lookupRaw]

theorem lookupRaw_cons_some {w : FSNode} {c : String} {cs : List String} {z : FSNode}
    (h : lookupRaw w (c :: cs) = some z) :
    ∃ es m, w = FSNode.dir es ∧ assocFind es c = some m ∧ lookupRaw m cs = some z := by
  cases w with
  | dir es =>
    cases hf : assocFind es c with
    | none => rw [lookupRaw_cons_dir, hf] at h; cases h
    | some m =>
      rw [lookupRaw_cons_dir, hf] at h
      exact ⟨es, m, rfl, hf, h⟩
  | file s => cases h
  | symlink s => cases h
  | tar es => cases h

theorem modifyAtRaw_nil (n : FSNode) (f : FSNode → FSNode) : modifyAtRaw n [] f = f n := by
  cases n <;> rfl

theorem modifyAtRaw_cons_dir (es : Entries) (c : String) (cs : List String)
    (f : FSNode → FSNode) :
    modifyAtRaw (.dir es) (c :: cs) f
      = .dir (es.map fun e => if e.1 = c then (e.1, modifyAtRaw e.2 cs f) else e) := rfl

theorem lookupRaw_modifyAtRaw_prefix {root : FSNode} {d : List String} {x : FSNode}
    (r : List String) (f : FSNode → FSNode) (h : lookupRaw root d = some x) :
    lookupRaw (modifyAtRaw root (d ++ r) f) d = some (modifyAtRaw x r f) := by
  induction d generalizing root with
  | nil =>
    rw [lookupRaw_nil, Option.some.injEq] at h
    rw [← h, List.nil_append, lookupRaw_nil]
  | cons c cs ih =>
    rcases lookupRaw_cons_some h with ⟨es, m, hw, hf, hl⟩
    subst hw
    rw [List.cons_append, modifyAtRaw_cons_dir, lookupRaw_cons_dir, assocFind_map_upd, hf]
    simpa using ih hl

theorem lookupRaw_modifyAtRaw_append {root : FSNode} {p : List String} {x : FSNode}
    (q : List String) (f : FSNode → FSNode) (h : lookupRaw root p = some x) :
    lookupRaw (modifyAtRaw root p f) (p ++ q) = lookupRaw (f x) q := by
  have h1 : lookupRaw (modifyAtRaw root p f) p = some (f x) := by
    have h2 := lookupRaw_modifyAtRaw_prefix [] f h
    rw [List.append_nil] at h2
    rw [h2, modifyAtRaw_nil]
  rw [lookupRaw_append, h1]
  rfl

theorem dropLast_append_single {α : Type} (l : List α) (a : α) :
    (l ++ [a]).dropLast = l := by
  simp

theorem getLastD_append_single {α : Type} (l : List α) (a d : α) :
    (l ++ [a]).getLastD d = a := by
  induction l generalizing d with
  | nil => rfl
  | cons b rest ih =>
    rw [List.cons_append, List.getLastD_cons]
    exact ih b

theorem dropLast_append_ne_nil {α : Type} (l : List α) {b : List α} (h : b ≠ []) :
    (l ++ b).dropLast = l ++ b.dropLast := by
  induction b using List.reverseRecOn with
  | nil => exact absurd rfl h
  | append_singleton ys y ih =>
    cases ys with
    | nil => simp [dropLast_append_single]
    | cons z zs =>
      rw [← List.append_assoc, dropLast_append_single, dropLast_append_single]

theorem mem_foldl_erase_subset (step : Entries → String × FSNode → Entries)
    (hstep : ∀ acc e x, x ∈ step acc e → x ∈ acc) :
    ∀ (l : Entries) (acc : Entries) (x), x ∈ l.foldl step acc → x ∈ acc := by
  intro l
  induction l with
  | nil => intro acc x hx; exact hx
  | cons e rest ih =>
    intro acc x hx
    exact hstep acc e x (ih (step acc e) x hx)

theorem remove_content_step_subset (prot : List String → Bool) (p : List String) :
    ∀ (acc : Entries) (e : String × FSNode) (x : String × FSNode),
      x ∈ (if prot (p ++ [e.1]) then acc else eraseName acc e.1) → x ∈ acc := by
  intro acc e x hx
  by_cases hp : prot (p ++ [e.1])
  · rwa [if_pos hp] at hx
  · rw [if_neg hp] at hx
    exact (mem_eraseName acc e.1 x hx).1

theorem foldl_erase_preserves_absence (prot : List String → Bool) (p : List String)
    (n : String) :
    ∀ (l : Entries) (acc : Entries),
      (∀ x ∈ acc, x.1 ≠ n) →
      ∀ x ∈ l.foldl (fun acc e => if prot (p ++ [e.1]) then acc else eraseName acc e.1) acc,
        x.1 ≠ n := by
  intro l
  induction l with
  | nil => intro acc hacc x hx; exact hacc x hx
  | cons e rest ih =>
    intro acc hacc x hx
    refine ih _ ?_ x hx
    intro y hy
    exact hacc y (remove_content_step_subset prot p acc e y hy)

theorem foldl_erase_removes (prot : List String → Bool) (p : List String) :
    ∀ (l : Entries) (acc : Entries) (e : String × FSNode),
      e ∈ l → prot (p ++ [e.1]) = false →
      ∀ x ∈ l.foldl (fun acc e => if prot (p ++ [e.1]) then acc else eraseName acc e.1) acc,
        x.1 ≠ e.1 := by
  intro l
  induction l with
  | nil => intro acc e he; cases he
  | cons e0 rest ih =>
    intro acc e he hprot x hx
    rcases List.mem_cons.mp he with h | h
    · subst h
      refine foldl_erase_preserves_absence prot p e.1 rest _ ?_ x hx
      intro y hy
      simp only [hprot] at hy
      simp at hy
      exact (mem_eraseName _ _ y hy).2
    · exact ih _ e h hprot x hx

theorem foldl_erase_all_empty (prot : List String → Bool) (p : List String)
    (hprot : ∀ q, prot q = false) (es : Entries) :
    es.foldl (fun acc e => if prot (p ++ [e.1]) then acc else eraseName acc e.1) es = [] := by
  rw [List.eq_nil_iff_forall_not_mem]
  intro x hx
  have hsub : x ∈ es :=
    mem_foldl_erase_subset _ (remove_content_step_subset prot p) es es x hx
  exact foldl_erase_removes prot p es es x hsub (hprot _) x hx rfl

theorem emptySomeGo_append (prot : List String → Bool) (base : List String)
    (l1 l2 : List PyVal) :
    ∀ (root root1 : FSNode), emptySomeGo prot base l1 root = (root1, none) →
      emptySomeGo prot base (l1 ++ l2) root = emptySomeGo prot base l2 root1 := by
  induction l1 with
  | nil =>
    intro root root1 h
    rw [show emptySomeGo prot base [] root = (root, none) from rfl] at h
    cases h
    rfl
  | cons x xs ih =>
    intro root root1 h
    cases x with
    | pystr s =>
      simp only [emptySomeGo, List.cons_append] at h ⊢
      cases hrc : remove_content prot root (ospathJoin base s) with
      | mk root2 err =>
        cases err with
        | none =>
          rw [hrc] at h
          exact ih root2 root1 h
        | some e => rw [hrc] at h; cases h
    | pyint n => rw [show emptySomeGo prot base (.pyint n :: xs) root = (root, some .valueError) from rfl] at h; cases h
    | pylist xs2 => rw [show emptySomeGo prot base (.pylist xs2 :: xs) root = (root, some .valueError) from rfl] at h; cases h

theorem lookupRaw_single (es : Entries) (q : String) :
    lookupRaw (.dir es) [q] = assocFind es q := by
  rw [lookupRaw_cons_dir]
  cases assocFind es q with
  | none => rfl
  | some m => simp [lookupRaw_nil]

theorem assocFind_of_lookupRaw_single {root : FSNode} {d : List String} {es : Entries}
    {q : String} {nq : FSNode} (hd : lookupRaw root d = some (.dir es))
    (hq : lookupRaw root (d ++ [q]) = some nq) : assocFind es q = some nq := by
  rw [lookupRaw_append, hd] at hq
  simpa [lookupRaw_single] using hq


theorem foldl_resolve_clean (l2 : List String) :
    ∀ acc : List String, (∀ c ∈ l2, c ≠ "." ∧ c ≠ "..") →
      l2.foldl (fun acc c => if c = "." then acc
        else if c = ".." then acc.dropLast else acc ++ [c]) acc = acc ++ l2 := by
  induction l2 with
  | nil => intro acc _; simp
  | cons c cs ih =>
    intro acc h
    have hc := h c (List.mem_cons_self _ _)
    rw [List.foldl_cons, if_neg hc.1, if_neg hc.2,
      ih (acc ++ [c]) (fun x hx => h x (List.mem_cons_of_mem _ hx))]
    simp

theorem resolvePath_append_clean (l1 l2 : List String)
    (h : ∀ c ∈ l2, c ≠ "." ∧ c ≠ "..") :
    resolvePath (l1 ++ l2) = resolvePath l1 ++ l2 := by
  unfold resolvePath
  rw [List.foldl_append]
  exact foldl_resolve_clean l2 _ h

theorem resolvePath_append_single (l : List String) (a : String)
    (h1 : a ≠ ".") (h2 : a ≠ "..") :
    resolvePath (l ++ [a]) = resolvePath l ++ [a] := by
  refine resolvePath_append_clean l [a] ?_
  intro c hc
  rw [List.mem_singleton] at hc
  rw [hc]
  exact ⟨h1, h2⟩

theorem resolvePath_append_dot (l : List String) :
    resolvePath (l ++ ["."]) = resolvePath l := by
  unfold resolvePath
  rw [List.foldl_append]
  rfl

theorem resolvePath_append_dotdot (l : List String) :
    resolvePath (l ++ [".."]) = (resolvePath l).dropLast := by
  unfold resolvePath
  rw [List.foldl_append]
  rfl

theorem prefix_concat_cases {α : Type} {l d : List α} {x : α} (h : l <+: d ++ [x]) :
    l <+: d ∨ l = d ++ [x] := by
  obtain ⟨r, hr⟩ := h
  cases r with
  | nil => right; simpa using hr
  | cons y ys =>
    left
    refine ⟨(y :: ys).dropLast, ?_⟩
    have h2 := congrArg List.dropLast hr
    rw [dropLast_append_ne_nil l (by simp), dropLast_append_single] at h2
    exact h2

theorem lookupRaw_modifyAtRaw_incomp :
    ∀ (tp : List String) (root : FSNode) (q : List String) (f : FSNode → FSNode),
      ¬ (tp <+: q) → ¬ (q <+: tp) →
      lookupRaw (modifyAtRaw root tp f) q = lookupRaw root q := by
  intro tp
  induction tp with
  | nil => intro root q f h1 _; exact absurd List.nil_prefix h1
  | cons a tp2 ih =>
    intro root q f h1 h2
    cases q with
    | nil => exact absurd List.nil_prefix h2
    | cons b q2 =>
      cases root with
      | file c => rfl
      | symlink t => rfl
      | tar tes => rfl
      | dir es =>
        rw [modifyAtRaw_cons_dir]
        by_cases hab : b = a
        · subst hab
          have h1n : ¬ (tp2 <+: q2) := by
            intro hp
            exact h1 ⟨hp.choose, by rw [List.cons_append, hp.choose_spec]⟩
          have h2n : ¬ (q2 <+: tp2) := by
            intro hp
            exact h2 ⟨hp.choose, by rw [List.cons_append, hp.choose_spec]⟩
          rw [lookupRaw_cons_dir, lookupRaw_cons_dir, assocFind_map_upd]
          cases hf : assocFind es b with
          | none => rfl
          | some m =>
            show lookupRaw (modifyAtRaw m tp2 f) q2 = lookupRaw m q2
            exact ih m q2 f h1n h2n
        · rw [lookupRaw_cons_dir, lookupRaw_cons_dir,
            assocFind_map_upd_ne _ _ hab]

theorem symlinkFreeList_cons (e : String × FSNode) (rest : Entries) :
    symlinkFreeList (e :: rest) = (symlinkFree e.2 && symlinkFreeList rest) := rfl

theorem symlinkFreeList_mem {es : Entries} (h : symlinkFreeList es = true)
    {x : String × FSNode} (hx : x ∈ es) : symlinkFree x.2 = true := by
  induction es with
  | nil => cases hx
  | cons e rest ih =>
    rw [symlinkFreeList_cons, Bool.and_eq_true] at h
    rcases List.mem_cons.mp hx with h0 | h0
    · rw [h0]; exact h.1
    · exact ih h.2 h0

theorem symlinkFree_assocFind {es : Entries} (h : symlinkFreeList es = true)
    {c : String} {x : FSNode} (hf : assocFind es c = some x) :
    symlinkFree x = true := by
  induction es with
  | nil => cases hf
  | cons e rest ih =>
    rw [symlinkFreeList_cons, Bool.and_eq_true] at h
    by_cases hc : e.1 = c
    · rw [show assocFind (e :: rest) c = if e.1 = c then some e.2 else assocFind rest c
        from rfl, if_pos hc, Option.some.injEq] at hf
      rw [← hf]
      exact h.1
    · rw [show assocFind (e :: rest) c = if e.1 = c then some e.2 else assocFind rest c
        from rfl, if_neg hc] at hf
      exact ih h.2 hf

theorem symlinkFree_lookupRaw :
    ∀ (p : List String) (root : FSNode) (x : FSNode), symlinkFree root = true →
      lookupRaw root p = some x → symlinkFree x = true := by
  intro p
  induction p with
  | nil =>
    intro root x h hl
    rw [lookupRaw_nil, Option.some.injEq] at hl
    rw [← hl]
    exact h
  | cons c cs ih =>
    intro root x h hl
    rcases lookupRaw_cons_some hl with ⟨es, m, hw, hf, hlm⟩
    subst hw
    exact ih m x (symlinkFree_assocFind h hf) hlm

theorem symlinkFreeList_eraseName {es : Entries} (h : symlinkFreeList es = true)
    (c : String) : symlinkFreeList (eraseName es c) = true := by
  induction es with
  | nil => rfl
  | cons e rest ih =>
    rw [symlinkFreeList_cons, Bool.and_eq_true] at h
    by_cases hc : e.1 = c
    · rw [show eraseName (e :: rest) c
        = if e.1 = c then eraseName rest c else e :: eraseName rest c from rfl, if_pos hc]
      exact ih h.2
    · rw [show eraseName (e :: rest) c
        = if e.1 = c then eraseName rest c else e :: eraseName rest c from rfl, if_neg hc]
      rw [symlinkFreeList_cons, Bool.and_eq_true]
      exact ⟨h.1, ih h.2⟩

theorem symlinkFreeList_foldl_erase (prot : List String → Bool) (p : List String) :
    ∀ (l : Entries) (acc : Entries), symlinkFreeList acc = true →
      symlinkFreeList (l.foldl
        (fun acc e => if prot (p ++ [e.1]) then acc else eraseName acc e.1) acc) = true := by
  intro l
  induction l with
  | nil => intro acc h; exact h
  | cons e rest ih =>
    intro acc h
    refine ih _ ?_
    show symlinkFreeList (if prot (p ++ [e.1]) = true then acc else eraseName acc e.1) = true
    by_cases hp : prot (p ++ [e.1])
    · rw [if_pos hp]; exact h
    · rw [if_neg hp]; exact symlinkFreeList_eraseName h e.1

theorem symlinkFree_modifyAtRaw :
    ∀ (p : List String) (root : FSNode) (f : FSNode → FSNode),
      symlinkFree root = true →
      (∀ n, symlinkFree n = true → symlinkFree (f n) = true) →
      symlinkFree (modifyAtRaw root p f) = true := by
  intro p
  induction p with
  | nil => intro root f h hf; rw [modifyAtRaw_nil]; exact hf root h
  | cons c cs ih =>
    intro root f h hf
    cases root with
    | file s => exact h
    | symlink s => exact h
    | tar tes => exact h
    | dir es =>
      rw [modifyAtRaw_cons_dir]
      show symlinkFreeList (es.map fun e => if e.1 = c then (e.1, modifyAtRaw e.2 cs f) else e) = true
      rw [show symlinkFree (FSNode.dir es) = symlinkFreeList es from rfl] at h
      revert h
      induction es with
      | nil => intro _; rfl
      | cons e rest ihes =>
        intro h
        rw [symlinkFreeList_cons, Bool.and_eq_true] at h
        rw [List.map_cons, symlinkFreeList_cons, Bool.and_eq_true]
        refine ⟨?_, ihes h.2⟩
        by_cases hc : e.1 = c
        · rw [if_pos hc]
          exact ih e.2 f h.1 hf
        · rw [if_neg hc]
          exact h.1

theorem eraseNode_symlinkFree (c : String) :
    ∀ n, symlinkFree n = true → symlinkFree (eraseNode n c) = true := by
  intro n h
  cases n with
  | file s => exact h
  | symlink s => exact h
  | tar tes => exact h
  | dir es => exact symlinkFreeList_eraseName h c

theorem archiveName_ne_dots (now : Timestamp) (sp : List String) :
    archiveName now sp ≠ "." ∧ archiveName now sp ≠ ".." := by
  have hlen : (archiveName now sp).length
      = (timestampFmt now).length + 1 + (sp.getLastD "").length + 7 := by
    show (timestampFmt now ++ "-" ++ sp.getLastD "" ++ ".tar.gz").length = _
    rw [String.length_append, String.length_append, String.length_append]
    rfl
  constructor
  · intro h
    have h1 : ("." : String).length = 1 := rfl
    rw [h, h1] at hlen
    omega
  · intro h
    have h1 : (".." : String).length = 2 := rfl
    rw [h, h1] at hlen
    omega


theorem remove_content_of_missing {prot : List String → Bool} {root : FSNode}
    {p : List String} (h : lookup root p = none) :
    remove_content prot root p = (root, some .fileNotFound) := by
  have h2 : lookupRaw root (resolvePath p) = none := h
  simp only [remove_content]
  rw [h2]

theorem remove_content_of_dir {prot : List String → Bool} {root : FSNode}
    {p : List String} {es : Entries} (h : lookup root p = some (.dir es)) :
    remove_content prot root p
      = (modifyAtRaw root (resolvePath p) (fun _ => .dir (es.foldl
          (fun acc e => if prot (p ++ [e.1]) then acc else eraseName acc e.1) es)), none) := by
  have h2 : lookupRaw root (resolvePath p) = some (.dir es) := h
  simp only [remove_content]
  rw [h2]

theorem remove_content_of_leaf {prot : List String → Bool} {root : FSNode}
    {p : List String} {x : FSNode} (h : lookup root p = some x)
    (hx1 : ∀ es0, x ≠ FSNode.dir es0) (hx2 : ∀ t, x ≠ FSNode.symlink t)
    (hprot : prot p = false) :
    remove_content prot root p
      = (modifyAtRaw root (resolvePath p).dropLast
          (fun n => eraseNode n ((resolvePath p).getLastD "")), none) := by
  have h2 : lookupRaw root (resolvePath p) = some x := h
  simp only [remove_content]
  rw [h2]
  cases x with
  | dir es0 => exact absurd rfl (hx1 es0)
  | symlink t => exact absurd rfl (hx2 t)
  | file c => rw [if_neg (by simp [hprot])]
  | tar tes => rw [if_neg (by simp [hprot])]

theorem remove_content_symlink_broken {prot : List String → Bool} {root : FSNode}
    {p : List String} {t : String} (h : lookup root p = some (.symlink t))
    (ht : lookup root (splitSlash t) = none) :
    remove_content prot root p = (root, some .fileNotFound) := by
  have h2 : lookupRaw root (resolvePath p) = some (.symlink t) := h
  have ht2 : lookupRaw root (resolvePath (splitSlash t)) = none := ht
  simp only [remove_content]
  rw [h2]
  simp only [ht2]

theorem remove_content_symlink_nondir {prot : List String → Bool} {root : FSNode}
    {p : List String} {t : String} {nt : FSNode}
    (h : lookup root p = some (.symlink t))
    (ht : lookup root (splitSlash t) = some nt)
    (hnt : ∀ tes, nt ≠ FSNode.dir tes)
    (hprot : prot p = false) :
    remove_content prot root p
      = (modifyAtRaw root (resolvePath p).dropLast
          (fun n => eraseNode n ((resolvePath p).getLastD "")), none) := by
  have h2 : lookupRaw root (resolvePath p) = some (.symlink t) := h
  have ht2 : lookupRaw root (resolvePath (splitSlash t)) = some nt := ht
  cases nt with
  | dir tes => exact absurd rfl (hnt tes)
  | file c =>
    simp only [remove_content]
    rw [h2]
    simp only [ht2]
    rw [if_neg (by simp [hprot])]
  | symlink t2 =>
    simp only [remove_content]
    rw [h2]
    simp only [ht2]
    rw [if_neg (by simp [hprot])]
  | tar tes =>
    simp only [remove_content]
    rw [h2]
    simp only [ht2]
    rw [if_neg (by simp [hprot])]

theorem remove_content_symlink_dir {prot : List String → Bool} {root : FSNode}
    {p : List String} {t : String} {tes : Entries}
    (h : lookup root p = some (.symlink t))
    (ht : lookup root (splitSlash t) = some (.dir tes)) :
    remove_content prot root p
      = (modifyAtRaw root (resolvePath (splitSlash t)) (fun _ => .dir (tes.foldl
          (fun acc e => if prot (p ++ [e.1]) then acc else eraseName acc e.1) tes)), none) := by
  have h2 : lookupRaw root (resolvePath p) = some (.symlink t) := h
  have ht2 : lookupRaw root (resolvePath (splitSlash t)) = some (.dir tes) := ht
  simp only [remove_content]
  rw [h2]
  simp only [ht2]

/-- C5: for a directory none of whose entries is deletion-protected,
empty_all terminates without error and afterwards listing the top level of
the directory yields no entries at all. -/
theorem c5_empty_all_complete (prot : List String → Bool) (root : FSNode)
    (sp : List String) (es : Entries) (hprot : ∀ q, prot q = false)
    (h : lookup root sp = some (.dir es)) :
    (empty_all prot root sp).2 = none ∧
    lookup (empty_all prot root sp).1 sp = some (.dir []) := by
  have hbody : empty_all prot root sp
      = (modifyAtRaw root (resolvePath sp) (fun _ => .dir (es.foldl
          (fun acc e => if prot (sp ++ [e.1]) then acc else eraseName acc e.1) es)), none) :=
    remove_content_of_dir h
  rw [hbody]
  refine ⟨rfl, ?_⟩
  rw [foldl_erase_all_empty prot sp hprot es]
  show lookupRaw (modifyAtRaw root (resolvePath sp) fun _ => FSNode.dir [])
    (resolvePath sp) = some (FSNode.dir [])
  have hraw : lookupRaw root (resolvePath sp) = some (.dir es) := h
  have h2 := lookupRaw_modifyAtRaw_prefix [] (fun _ => FSNode.dir []) hraw
  rw [List.append_nil] at h2
  rw [h2, modifyAtRaw_nil]

/-- C6: removal of a directory content is partial-failure tolerant: the
call returns without raising even when some entries are protected, and
every ordinarily named entry whose own deletion does not fail is removed,
including entries listed after a failing one.  (os.listdir never returns
the dot or double-dot pseudo-entries, so the two naming premises hold for
every real directory listing.) -/
theorem c6_remove_content_partial_failure (prot : List String → Bool) (root : FSNode)
    (sp : List String) (es : Entries) (h : lookup root sp = some (.dir es)) :
    (remove_content prot root sp).2 = none ∧
    ∀ e ∈ es, e.1 ≠ "." → e.1 ≠ ".." → prot (sp ++ [e.1]) = false →
      lookup (remove_content prot root sp).1 (sp ++ [e.1]) = none := by
  rw [remove_content_of_dir h]
  refine ⟨rfl, ?_⟩
  intro e he hne1 hne2 hp
  show lookupRaw (modifyAtRaw root (resolvePath sp) _) (resolvePath (sp ++ [e.1])) = none
  rw [resolvePath_append_single sp e.1 hne1 hne2]
  have hraw : lookupRaw root (resolvePath sp) = some (.dir es) := h
  rw [lookupRaw_modifyAtRaw_append [e.1] _ hraw, lookupRaw_single]
  exact assocFind_eq_none_of_names _ e.1 (foldl_erase_removes prot sp es es e he hp)

/-- C4: a non-iterable content argument (an integer) makes both empty_some
and fetch_some_from fail with the ValueError raised from the caught
TypeError, before any deletion or copy, leaving the filesystem
unchanged. -/
theorem c4_non_iterable_rejected (prot : List String → Bool) (root : FSNode)
    (d src : List String) (n : Int) :
    empty_some prot root d (.pyint n) = (root, some .valueError) ∧
    fetch_some_from root d src (.pyint n) = (root, some .valueError) :=
  ⟨rfl, rfl⟩

/-- C9: when empty_some reaches a relative path whose resolved location
does not exist, the os.listdir call inside remove_content raises
FileNotFoundError, which no handler catches (only the TypeError of a
non-iterable is turned into ValueError), so the call stops there: the
items after the missing path are never processed and the state is the one
reached before the failure. -/
theorem c9_empty_some_missing_path (prot : List String → Bool) (base : List String)
    (pre : List PyVal) (p : String) (rest : List PyVal) (root root1 : FSNode)
    (hpre : emptySomeGo prot base pre root = (root1, none))
    (hmiss : lookup root1 (ospathJoin base p) = none) :
    empty_some prot root base (.pylist (pre ++ .pystr p :: rest))
      = (root1, some .fileNotFound) := by
  have hrc : remove_content prot root1 (ospathJoin base p) = (root1, some .fileNotFound) :=
    remove_content_of_missing hmiss
  show emptySomeGo prot base (pre ++ .pystr p :: rest) root = _
  rw [emptySomeGo_append prot base pre _ root root1 hpre]
  simp [emptySomeGo, hrc]

/-- C10: for an iterable content whose elements hold a non-string value
after a valid existing path, the ValueError from the caught TypeError is
raised only after the earlier path has already been deleted: the error
does not precede mutation for iterable inputs. -/
theorem c10_empty_some_mutation_before_error (prot : List String → Bool) (root : FSNode)
    (d : List String) (a : String) (k : Int) (es : Entries) (c : String)
    (hsplit : splitSlash a = [a]) (habs : startsWithSlash a = false)
    (hd : lookup root d = some (.dir es))
    (hfile : lookup root (d ++ [a]) = some (.file c))
    (hprot : prot (d ++ [a]) = false) :
    empty_some prot root d (.pylist [.pystr a, .pyint k])
      = (modifyAt root d (fun n => eraseNode n a), some .valueError) ∧
    lookup (modifyAt root d (fun n => eraseNode n a)) (d ++ [a]) = none := by
  have hdraw : lookupRaw root (resolvePath d) = some (.dir es) := hd
  have hfraw : lookupRaw root (resolvePath (d ++ [a])) = some (.file c) := hfile
  by_cases ha1 : a = "."
  · exfalso
    subst ha1
    rw [resolvePath_append_dot, hdraw] at hfraw
    simp at hfraw
  by_cases ha2 : a = ".."
  · exfalso
    subst ha2
    rw [resolvePath_append_dotdot] at hfraw
    cases hres : resolvePath d with
    | nil =>
      rw [hres] at hdraw hfraw
      rw [show ([] : List String).dropLast = [] from rfl] at hfraw
      rw [lookupRaw_nil, Option.some.injEq] at hdraw hfraw
      rw [hdraw] at hfraw
      exact FSNode.noConfusion hfraw
    | cons y ys =>
      have hne : resolvePath d ≠ [] := by rw [hres]; simp
      have hsplit2 := List.dropLast_append_getLast hne
      rw [← hsplit2, lookupRaw_append] at hdraw
      rw [hfraw] at hdraw
      have hcontra : (none : Option FSNode) = some (FSNode.dir es) := hdraw
      cases hcontra
  have hres : resolvePath (d ++ [a]) = resolvePath d ++ [a] :=
    resolvePath_append_single d a ha1 ha2
  have hjoin : ospathJoin d a = d ++ [a] := by
    simp [ospathJoin, habs, hsplit]
  have hrc : remove_content prot root (d ++ [a])
      = (modifyAt root d (fun n => eraseNode n a), none) := by
    rw [remove_content_of_leaf hfile (fun es0 h0 => FSNode.noConfusion h0)
      (fun t h0 => FSNode.noConfusion h0) hprot]
    rw [hres, dropLast_append_single]
    have harg : (fun n => eraseNode n ((resolvePath d ++ [a]).getLastD ""))
        = fun n => eraseNode n a := by
      funext n
      rw [getLastD_append_single]
    rw [harg]
    rfl
  constructor
  · show emptySomeGo prot d [.pystr a, .pyint k] root = _
    simp [emptySomeGo, hjoin, hrc]
  · show lookupRaw (modifyAtRaw root (resolvePath d) _) (resolvePath (d ++ [a])) = none
    rw [hres]
    rw [lookupRaw_modifyAtRaw_append [a] _ hdraw]
    show lookupRaw (eraseNode (FSNode.dir es) a) [a] = none
    rw [show eraseNode (FSNode.dir es) a = .dir (eraseName es a) from rfl]
    rw [lookupRaw_single]
    exact assocFind_eraseName_self es a


/-- C1 (amended): for two distinct ordinarily named existing entries p and
q of a directory whose absolute path is resolved, empty_some on the single
relative path p is exactly the removal helper of empty_all applied to the
joined path, and it leaves q untouched while handling p according to what
the operating system sees: a regular file or archive file p is unlinked
entirely; a directory p has its contents removed and survives as an empty
directory; a symbolic link p whose target does not exist makes os.listdir
raise FileNotFoundError with nothing removed; a symbolic link p to a
non-directory raises NotADirectoryError, caught, and the link itself is
unlinked entirely; a symbolic link p to a directory lying outside the
directory subtree and off its ancestor chain has the target emptied
through the link while the link itself survives. -/
theorem c1_empty_some_selective (root : FSNode) (d : List String) (es : Entries)
    (p q : String) (np nq : FSNode)
    (hdres : resolvePath d = d)
    (hd : lookup root d = some (.dir es))
    (hsplit : splitSlash p = [p]) (habs : startsWithSlash p = false)
    (hp1 : p ≠ ".") (hp2 : p ≠ "..")
    (hq1 : q ≠ ".") (hq2 : q ≠ "..")
    (hpq : p ≠ q)
    (hp : lookup root (d ++ [p]) = some np)
    (hq : lookup root (d ++ [q]) = some nq) :
    (∀ prot : List String → Bool,
        empty_some prot root d (.pylist [.pystr p])
          = remove_content prot root (ospathJoin d p)) ∧
    (∀ c, np = .file c →
      empty_some (fun _ => false) root d (.pylist [.pystr p])
          = (modifyAt root d (fun n => eraseNode n p), none) ∧
      lookup (modifyAt root d (fun n => eraseNode n p)) (d ++ [p]) = none ∧
      lookup (modifyAt root d (fun n => eraseNode n p)) (d ++ [q]) = some nq) ∧
    (∀ tes, np = .tar tes →
      empty_some (fun _ => false) root d (.pylist [.pystr p])
          = (modifyAt root d (fun n => eraseNode n p), none) ∧
      lookup (modifyAt root d (fun n => eraseNode n p)) (d ++ [p]) = none ∧
      lookup (modifyAt root d (fun n => eraseNode n p)) (d ++ [q]) = some nq) ∧
    (∀ pes, np = .dir pes →
      (empty_some (fun _ => false) root d (.pylist [.pystr p])).2 = none ∧
      lookup (empty_some (fun _ => false) root d (.pylist [.pystr p])).1 (d ++ [p])
          = some (.dir []) ∧
      lookup (empty_some (fun _ => false) root d (.pylist [.pystr p])).1 (d ++ [q])
          = some nq) ∧
    (∀ t, np = .symlink t → lookup root (splitSlash t) = none →
      empty_some (fun _ => false) root d (.pylist [.pystr p])
          = (root, some .fileNotFound)) ∧
    (∀ t nt, np = .symlink t → lookup root (splitSlash t) = some nt →
      (∀ tes, nt ≠ FSNode.dir tes) →
      empty_some (fun _ => false) root d (.pylist [.pystr p])
          = (modifyAt root d (fun n => eraseNode n p), none) ∧
      lookup (modifyAt root d (fun n => eraseNode n p)) (d ++ [p]) = none ∧
      lookup (modifyAt root d (fun n => eraseNode n p)) (d ++ [q]) = some nq) ∧
    (∀ t tes, np = .symlink t → lookup root (splitSlash t) = some (.dir tes) →
      ¬ (resolvePath (splitSlash t) <+: d) → ¬ (d <+: resolvePath (splitSlash t)) →
      (empty_some (fun _ => false) root d (.pylist [.pystr p])).2 = none ∧
      lookup (empty_some (fun _ => false) root d (.pylist [.pystr p])).1 (splitSlash t)
          = some (.dir []) ∧
      lookup (empty_some (fun _ => false) root d (.pylist [.pystr p])).1 (d ++ [p])
          = some (.symlink t) ∧
      lookup (empty_some (fun _ => false) root d (.pylist [.pystr p])).1 (d ++ [q])
          = some nq) := by
  have hjoin : ospathJoin d p = d ++ [p] := by
    simp [ospathJoin, habs, hsplit]
  have hrespd : resolvePath (d ++ [p]) = d ++ [p] := by
    rw [resolvePath_append_single d p hp1 hp2, hdres]
  have hresqd : resolvePath (d ++ [q]) = d ++ [q] := by
    rw [resolvePath_append_single d q hq1 hq2, hdres]
  have hrawd : lookupRaw root d = some (.dir es) := by
    have h0 : lookupRaw root (resolvePath d) = some (.dir es) := hd
    rwa [hdres] at h0
  have hrawp : lookupRaw root (d ++ [p]) = some np := by
    have h0 : lookupRaw root (resolvePath (d ++ [p])) = some np := hp
    rwa [hrespd] at h0
  have hrawq : lookupRaw root (d ++ [q]) = some nq := by
    have h0 : lookupRaw root (resolvePath (d ++ [q])) = some nq := hq
    rwa [hresqd] at h0
  have hfq : assocFind es q = some nq := assocFind_of_lookupRaw_single hrawd hrawq
  have hmod : ∀ f : FSNode → FSNode, modifyAt root d f = modifyAtRaw root d f := by
    intro f
    show modifyAtRaw root (resolvePath d) f = _
    rw [hdres]
  have herase_p : lookupRaw (modifyAtRaw root d (fun n => eraseNode n p)) (d ++ [p])
      = none := by
    rw [lookupRaw_modifyAtRaw_append [p] _ hrawd]
    show lookupRaw (FSNode.dir (eraseName es p)) [p] = none
    rw [lookupRaw_single]
    exact assocFind_eraseName_self es p
  have herase_q : lookupRaw (modifyAtRaw root d (fun n => eraseNode n p)) (d ++ [q])
      = some nq := by
    rw [lookupRaw_modifyAtRaw_append [q] _ hrawd]
    show lookupRaw (FSNode.dir (eraseName es p)) [q] = some nq
    rw [lookupRaw_single, assocFind_eraseName_ne _ (fun hc => hpq hc.symm), hfq]
  have harg : (fun n => eraseNode n ((d ++ [p]).getLastD "")) = fun n => eraseNode n p := by
    funext n
    rw [getLastD_append_single]
  have hsingle : ∀ prot : List String → Bool,
      empty_some prot root d (.pylist [.pystr p])
        = remove_content prot root (ospathJoin d p) := by
    intro prot
    show emptySomeGo prot d [.pystr p] root = _
    cases hrc : remove_content prot root (ospathJoin d p) with
    | mk r2 err =>
      cases err with
      | none => simp [emptySomeGo, hrc]
      | some e => simp [emptySomeGo, hrc]
  refine ⟨hsingle, ?_, ?_, ?_, ?_, ?_, ?_⟩
  · intro c hc
    subst hc
    have hrc : remove_content (fun _ => false) root (d ++ [p])
        = (modifyAtRaw root d (fun n => eraseNode n p), none) := by
      rw [remove_content_of_leaf hp (fun es0 h0 => FSNode.noConfusion h0)
        (fun t h0 => FSNode.noConfusion h0) rfl]
      rw [hrespd, dropLast_append_single, harg]
    refine ⟨by rw [hsingle, hjoin, hrc, hmod], ?_, ?_⟩
    · rw [hmod]
      show lookupRaw (modifyAtRaw root d _) (resolvePath (d ++ [p])) = none
      rw [hrespd]
      exact herase_p
    · rw [hmod]
      show lookupRaw (modifyAtRaw root d _) (resolvePath (d ++ [q])) = some nq
      rw [hresqd]
      exact herase_q
  · intro tes hc
    subst hc
    have hrc : remove_content (fun _ => false) root (d ++ [p])
        = (modifyAtRaw root d (fun n => eraseNode n p), none) := by
      rw [remove_content_of_leaf hp (fun es0 h0 => FSNode.noConfusion h0)
        (fun t h0 => FSNode.noConfusion h0) rfl]
      rw [hrespd, dropLast_append_single, harg]
    refine ⟨by rw [hsingle, hjoin, hrc, hmod], ?_, ?_⟩
    · rw [hmod]
      show lookupRaw (modifyAtRaw root d _) (resolvePath (d ++ [p])) = none
      rw [hrespd]
      exact herase_p
    · rw [hmod]
      show lookupRaw (modifyAtRaw root d _) (resolvePath (d ++ [q])) = some nq
      rw [hresqd]
      exact herase_q
  · intro pes hc
    subst hc
    have hrc : remove_content (fun _ => false) root (d ++ [p])
        = (modifyAtRaw root (d ++ [p]) (fun _ => FSNode.dir []), none) := by
      rw [remove_content_of_dir hp]
      rw [foldl_erase_all_empty (fun _ => false) (d ++ [p]) (fun _ => rfl) pes]
      rw [hrespd]
    refine ⟨by rw [hsingle, hjoin, hrc], ?_, ?_⟩
    · rw [hsingle, hjoin, hrc]
      show lookupRaw (modifyAtRaw root (d ++ [p]) fun _ => FSNode.dir [])
        (resolvePath (d ++ [p])) = some (FSNode.dir [])
      rw [hrespd]
      have h2 := lookupRaw_modifyAtRaw_prefix [] (fun _ => FSNode.dir []) hrawp
      rw [List.append_nil] at h2
      rw [h2, modifyAtRaw_nil]
    · rw [hsingle, hjoin, hrc]
      show lookupRaw (modifyAtRaw root (d ++ [p]) fun _ => FSNode.dir [])
        (resolvePath (d ++ [q])) = some nq
      rw [hresqd]
      have h2 := lookupRaw_modifyAtRaw_prefix [p] (fun _ => FSNode.dir []) hrawd
      rw [lookupRaw_append, h2]
      show lookupRaw (modifyAtRaw (FSNode.dir es) [p] fun _ => FSNode.dir []) [q] = some nq
      rw [modifyAtRaw_cons_dir, lookupRaw_single,
        assocFind_map_upd_ne _ _ (fun hc2 => hpq hc2.symm), hfq]
  · intro t hc ht
    subst hc
    rw [hsingle, hjoin]
    exact remove_content_symlink_broken hp ht
  · intro t nt hc ht hnt
    subst hc
    have hrc : remove_content (fun _ => false) root (d ++ [p])
        = (modifyAtRaw root d (fun n => eraseNode n p), none) := by
      rw [remove_content_symlink_nondir hp ht hnt rfl]
      rw [hrespd, dropLast_append_single, harg]
    refine ⟨by rw [hsingle, hjoin, hrc, hmod], ?_, ?_⟩
    · rw [hmod]
      show lookupRaw (modifyAtRaw root d _) (resolvePath (d ++ [p])) = none
      rw [hrespd]
      exact herase_p
    · rw [hmod]
      show lookupRaw (modifyAtRaw root d _) (resolvePath (d ++ [q])) = some nq
      rw [hresqd]
      exact herase_q
  · intro t tes hc ht hni1 hni2
    subst hc
    have htraw : lookupRaw root (resolvePath (splitSlash t)) = some (.dir tes) := ht
    have hrc : remove_content (fun _ => false) root (d ++ [p])
        = (modifyAtRaw root (resolvePath (splitSlash t)) (fun _ => FSNode.dir []), none) := by
      rw [remove_content_symlink_dir hp ht]
      rw [foldl_erase_all_empty (fun _ => false) (d ++ [p]) (fun _ => rfl) tes]
    have hn1p : ¬ (resolvePath (splitSlash t) <+: d ++ [p]) := by
      intro hpre
      rcases prefix_concat_cases hpre with h0 | h0
      · exact hni1 h0
      · rw [h0, hrawp] at htraw
        injection htraw with h3
        exact FSNode.noConfusion h3
    have hn2p : ¬ (d ++ [p] <+: resolvePath (splitSlash t)) := by
      intro hpre
      exact hni2 (List.IsPrefix.trans ⟨[p], rfl⟩ hpre)
    have hn1q : ¬ (resolvePath (splitSlash t) <+: d ++ [q]) := by
      intro hpre
      rcases prefix_concat_cases hpre with h0 | h0
      · exact hni1 h0
      · refine hni2 ?_
        rw [h0]
        exact ⟨[q], rfl⟩
    have hn2q : ¬ (d ++ [q] <+: resolvePath (splitSlash t)) := by
      intro hpre
      exact hni2 (List.IsPrefix.trans ⟨[q], rfl⟩ hpre)
    refine ⟨by rw [hsingle, hjoin, hrc], ?_, ?_, ?_⟩
    · rw [hsingle, hjoin, hrc]
      show lookupRaw (modifyAtRaw root (resolvePath (splitSlash t)) fun _ => FSNode.dir [])
        (resolvePath (splitSlash t)) = some (FSNode.dir [])
      have h2 := lookupRaw_modifyAtRaw_prefix [] (fun _ => FSNode.dir []) htraw
      rw [List.append_nil] at h2
      rw [h2, modifyAtRaw_nil]
    · rw [hsingle, hjoin, hrc]
      show lookupRaw (modifyAtRaw root (resolvePath (splitSlash t)) fun _ => FSNode.dir [])
        (resolvePath (d ++ [p])) = some (FSNode.symlink t)
      rw [hrespd, lookupRaw_modifyAtRaw_incomp _ root _ _ hn1p hn2p]
      exact hrawp
    · rw [hsingle, hjoin, hrc]
      show lookupRaw (modifyAtRaw root (resolvePath (splitSlash t)) fun _ => FSNode.dir [])
        (resolvePath (d ++ [q])) = some nq
      rw [hresqd, lookupRaw_modifyAtRaw_incomp _ root _ _ hn1q hn2q]
      exact hrawq

/-- C1 (counterexample to the claim as stated): with p a subdirectory and
q a file, empty_some([p]) succeeds but p is still present afterwards, as
an empty directory, so p is not removed entirely. -/
theorem c1_counterexample :
    (empty_some (fun _ => false)
        (.dir [("d", .dir [("p", .dir [("x", .file "1")]), ("q", .file "2")])])
        ["d"] (.pylist [.pystr "p"])).2 = none ∧
    lookup (empty_some (fun _ => false)
        (.dir [("d", .dir [("p", .dir [("x", .file "1")]), ("q", .file "2")])])
        ["d"] (.pylist [.pystr "p"])).1 ["d", "p"] = some (.dir []) ∧
    lookup (empty_some (fun _ => false)
        (.dir [("d", .dir [("p", .dir [("x", .file "1")]), ("q", .file "2")])])
        ["d"] (.pylist [.pystr "p"])).1 ["d", "p"] ≠ none := by
  refine ⟨rfl, rfl, ?_⟩
  intro h
  rw [show lookup (empty_some (fun _ => false)
        (.dir [("d", .dir [("p", .dir [("x", .file "1")]), ("q", .file "2")])])
        ["d"] (.pylist [.pystr "p"])).1 ["d", "p"] = some (.dir []) from rfl] at h
  cases h


/-- C2: create_tar_archive names the archive timestamp-basename.tar.gz
with the strftime %F-%H%M%S timestamp, writes it into the given output
directory, defaulting to the archived directory itself, returns that
path, and the archive holds one top-level entry timestamp-basename
carrying the whole tree of the directory as of the call. -/
theorem c2_create_tar_archive (now : Timestamp) (root : FSNode) (sp : List String)
    (outdir : Option (List String)) (es oes : Entries)
    (hsp : lookup root sp = some (.dir es))
    (hout : lookup root (outdir.getD sp) = some (.dir oes))
    (hfree : ∀ zs, assocFind oes (archiveName now sp) ≠ some (.dir zs)) :
    create_tar_archive now root sp outdir
      = some (writeInDir root (outdir.getD sp) (archiveName now sp)
                (.tar [(arcRootName now sp, .dir es)]),
              (outdir.getD sp) ++ [archiveName now sp]) ∧
    lookup (writeInDir root (outdir.getD sp) (archiveName now sp)
              (.tar [(arcRootName now sp, .dir es)]))
        ((outdir.getD sp) ++ [archiveName now sp])
      = some (.tar [(arcRootName now sp, .dir es)]) ∧
    archiveName now sp = timestampFmt now ++ "-" ++ sp.getLastD "" ++ ".tar.gz" ∧
    timestampFmt ⟨2020, 4, 21, 13, 20, 52⟩ = "2020-04-21-132052" := by
  have houtraw : lookupRaw root (resolvePath (outdir.getD sp)) = some (.dir oes) := hout
  have hres : resolvePath ((outdir.getD sp) ++ [archiveName now sp])
      = resolvePath (outdir.getD sp) ++ [archiveName now sp] :=
    resolvePath_append_single _ _ (archiveName_ne_dots now sp).1
      (archiveName_ne_dots now sp).2
  have hguard : lookup root ((outdir.getD sp) ++ [archiveName now sp])
      = assocFind oes (archiveName now sp) := by
    show lookupRaw root (resolvePath _) = _
    rw [hres, lookupRaw_append, houtraw]
    show lookupRaw (FSNode.dir oes) [archiveName now sp] = _
    rw [lookupRaw_single]
  refine ⟨?_, ?_, rfl, by decide⟩
  · simp only [create_tar_archive]
    rw [hsp, hout, hguard]
    cases hfa : assocFind oes (archiveName now sp) with
    | none => rfl
    | some m =>
      cases m with
      | dir zs => exact absurd hfa (hfree zs)
      | file c => rfl
      | symlink t => rfl
      | tar tes => rfl
  · show lookupRaw (writeInDirRaw root (resolvePath (outdir.getD sp))
        (archiveName now sp) (.tar [(arcRootName now sp, .dir es)]))
      (resolvePath ((outdir.getD sp) ++ [archiveName now sp])) = _
    rw [hres]
    unfold writeInDirRaw
    rw [lookupRaw_modifyAtRaw_append [archiveName now sp] _ houtraw]
    show lookupRaw (FSNode.dir (upsert oes (archiveName now sp)
        (.tar [(arcRootName now sp, .dir es)]))) [archiveName now sp] = _
    rw [lookupRaw_single, assocFind_upsert_self]

/-- C8: the declared two-column UniqueConstraint over name and
organization makes the insertion of a second Author with an identical
name and organization pair fail with a constraint violation. -/
theorem c8_author_unique_constraint (tbl tbl2 : List Author) (a b : Author)
    (hname : a.name = b.name) (horg : a.organization = b.organization)
    (hins : insertAuthor tbl a = .ok tbl2) :
    insertAuthor tbl2 b = .error .uniqueViolation := by
  unfold insertAuthor at hins ⊢
  split at hins
  · cases hins
  · cases hins
    rw [if_pos]
    rw [List.any_append]
    apply Bool.or_eq_true_iff.mpr
    right
    simp [authorUniqueConstraintColumns, authorColumnValue, hname, horg]


theorem remove_content_of_leaf_prot {prot : List String → Bool} {root : FSNode}
    {p : List String} {x : FSNode} (h : lookup root p = some x)
    (hx1 : ∀ es0, x ≠ FSNode.dir es0) (hx2 : ∀ t, x ≠ FSNode.symlink t)
    (hprot : prot p = true) :
    remove_content prot root p = (root, some .permission) := by
  have h2 : lookupRaw root (resolvePath p) = some x := h
  simp only [remove_content]
  rw [h2]
  cases x with
  | dir es0 => exact absurd rfl (hx1 es0)
  | symlink t => exact absurd rfl (hx2 t)
  | file c => rw [if_pos (by simp [hprot])]
  | tar tes => rw [if_pos (by simp [hprot])]

theorem dirAtRaw_modifyAtRaw_here {root : FSNode} {rsp : List String} {es : Entries}
    (hd : lookupRaw root rsp = some (.dir es)) (f : FSNode → FSNode)
    (hf : ∀ es0, ∃ es1, f (FSNode.dir es0) = FSNode.dir es1) :
    ∃ es2, lookupRaw (modifyAtRaw root rsp f) rsp = some (.dir es2) := by
  have h2 := lookupRaw_modifyAtRaw_prefix [] f hd
  rw [List.append_nil] at h2
  rw [modifyAtRaw_nil] at h2
  obtain ⟨es1, h1⟩ := hf es
  exact ⟨es1, by rw [h2, h1]⟩

theorem dirAtRaw_modifyAtRaw_deep {root : FSNode} {rsp : List String} {es : Entries}
    (hd : lookupRaw root rsp = some (.dir es)) {comps : List String} (hc : comps ≠ [])
    (f : FSNode → FSNode) :
    ∃ es2, lookupRaw (modifyAtRaw root (rsp ++ comps) f) rsp = some (.dir es2) := by
  have h2 := lookupRaw_modifyAtRaw_prefix comps f hd
  cases comps with
  | nil => exact absurd rfl hc
  | cons c cs =>
    rw [modifyAtRaw_cons_dir] at h2
    exact ⟨_, h2⟩

theorem remove_content_preserves (prot : List String → Bool) {root : FSNode}
    {rsp : List String} {es : Entries} (comps : List String)
    (hsf : symlinkFree root = true)
    (hd : lookupRaw root rsp = some (.dir es))
    (p : List String) (hres : resolvePath p = rsp ++ comps) :
    symlinkFree (remove_content prot root p).1 = true ∧
    ∃ es2, lookupRaw (remove_content prot root p).1 rsp = some (.dir es2) := by
  cases hl : lookupRaw root (rsp ++ comps) with
  | none =>
    have hlp : lookup root p = none := by
      show lookupRaw root (resolvePath p) = none
      rw [hres]; exact hl
    rw [remove_content_of_missing hlp]
    exact ⟨hsf, es, hd⟩
  | some x =>
    have hlp : lookup root p = some x := by
      show lookupRaw root (resolvePath p) = some x
      rw [hres]; exact hl
    have hxsf : symlinkFree x = true := symlinkFree_lookupRaw _ root x hsf hl
    have hcomps : (∀ es0, x ≠ FSNode.dir es0) → comps ≠ [] := by
      intro hx h0
      subst h0
      rw [List.append_nil, hd] at hl
      cases hl
      exact absurd rfl (hx es)
    cases x with
    | symlink t => simp [symlinkFree] at hxsf
    | dir des =>
      rw [remove_content_of_dir hlp]
      have hdes : symlinkFreeList des = true := hxsf
      have hdes2 : symlinkFreeList (des.foldl
          (fun acc e => if prot (p ++ [e.1]) then acc else eraseName acc e.1) des)
          = true :=
        symlinkFreeList_foldl_erase prot p des des hdes
      refine ⟨?_, ?_⟩
      · exact symlinkFree_modifyAtRaw _ root _ hsf (fun n _ => hdes2)
      · rw [hres]
        cases hcm : comps with
        | nil =>
          subst hcm
          rw [List.append_nil]
          exact dirAtRaw_modifyAtRaw_here hd _ (fun es0 => ⟨_, rfl⟩)
        | cons c cs =>
          subst hcm
          exact dirAtRaw_modifyAtRaw_deep hd (by simp) _
    | file c =>
      have hc := hcomps fun es0 h0 => FSNode.noConfusion h0
      by_cases hp : prot p = true
      · rw [remove_content_of_leaf_prot hlp (fun es0 h0 => FSNode.noConfusion h0)
          (fun t h0 => FSNode.noConfusion h0) hp]
        exact ⟨hsf, es, hd⟩
      · rw [remove_content_of_leaf hlp (fun es0 h0 => FSNode.noConfusion h0)
          (fun t h0 => FSNode.noConfusion h0) (Bool.of_not_eq_true hp)]
        refine ⟨?_, ?_⟩
        · exact symlinkFree_modifyAtRaw _ root _ hsf (eraseNode_symlinkFree _)
        · rw [hres, dropLast_append_ne_nil rsp hc]
          cases hdl : comps.dropLast with
          | nil =>
            rw [List.append_nil]
            exact dirAtRaw_modifyAtRaw_here hd _ (fun es0 => ⟨_, rfl⟩)
          | cons c2 cs2 => exact dirAtRaw_modifyAtRaw_deep hd (by simp) _
    | tar tes =>
      have hc := hcomps fun es0 h0 => FSNode.noConfusion h0
      by_cases hp : prot p = true
      · rw [remove_content_of_leaf_prot hlp (fun es0 h0 => FSNode.noConfusion h0)
          (fun t h0 => FSNode.noConfusion h0) hp]
        exact ⟨hsf, es, hd⟩
      · rw [remove_content_of_leaf hlp (fun es0 h0 => FSNode.noConfusion h0)
          (fun t h0 => FSNode.noConfusion h0) (Bool.of_not_eq_true hp)]
        refine ⟨?_, ?_⟩
        · exact symlinkFree_modifyAtRaw _ root _ hsf (eraseNode_symlinkFree _)
        · rw [hres, dropLast_append_ne_nil rsp hc]
          cases hdl : comps.dropLast with
          | nil =>
            rw [List.append_nil]
            exact dirAtRaw_modifyAtRaw_here hd _ (fun es0 => ⟨_, rfl⟩)
          | cons c2 cs2 => exact dirAtRaw_modifyAtRaw_deep hd (by simp) _


theorem emptySomeGo_preserves (prot : List String → Bool) (sp : List String)
    (items : List PyVal) :
    ∀ (root : FSNode) (es : Entries),
      symlinkFree root = true →
      lookupRaw root (resolvePath sp) = some (.dir es) →
      (∀ s, PyVal.pystr s ∈ items → startsWithSlash s = false ∧
        ∀ c0 ∈ splitSlash s, c0 ≠ "." ∧ c0 ≠ "..") →
      symlinkFree (emptySomeGo prot sp items root).1 = true ∧
      ∃ es2, lookupRaw (emptySomeGo prot sp items root).1 (resolvePath sp)
        = some (.dir es2) := by
  induction items with
  | nil => intro root es hsf hd _; exact ⟨hsf, es, hd⟩
  | cons x xs ih =>
    intro root es hsf hd hrel
    cases x with
    | pystr s =>
      obtain ⟨habs, hclean⟩ := hrel s (List.mem_cons_self _ _)
      have hjoin : ospathJoin sp s = sp ++ splitSlash s := by
        simp [ospathJoin, habs]
      have hres : resolvePath (sp ++ splitSlash s)
          = resolvePath sp ++ splitSlash s :=
        resolvePath_append_clean sp _ hclean
      have hpres := remove_content_preserves prot (splitSlash s) hsf hd
        (sp ++ splitSlash s) hres
      rw [← hjoin] at hpres
      cases hrem : remove_content prot root (ospathJoin sp s) with
      | mk r2 err =>
        rw [hrem] at hpres
        cases err with
        | none =>
          obtain ⟨hsf2, es2, h2⟩ := hpres
          have hgo : emptySomeGo prot sp (.pystr s :: xs) root
              = emptySomeGo prot sp xs r2 := by
            simp [emptySomeGo, hrem]
          rw [hgo]
          exact ih r2 es2 hsf2 h2 (fun s2 hs2 => hrel s2 (List.mem_cons_of_mem _ hs2))
        | some e =>
          have hgo : emptySomeGo prot sp (.pystr s :: xs) root = (r2, some e) := by
            simp [emptySomeGo, hrem]
          rw [hgo]
          exact hpres
    | pyint n => exact ⟨hsf, es, hd⟩
    | pylist xs2 => exact ⟨hsf, es, hd⟩

theorem isDirAt_shutil_copy (root : FSNode) (src sp : List String) {es : Entries}
    (hd : lookup root sp = some (.dir es)) :
    isDirAt (shutil_copy root src sp).1 sp := by
  have hdraw : lookupRaw root (resolvePath sp) = some (.dir es) := hd
  have hw : ∀ (b : String) (m : FSNode), isDirAt (writeInDir root sp b m) sp := by
    intro b m
    exact dirAtRaw_modifyAtRaw_here hdraw _ (fun es0 => ⟨_, rfl⟩)
  unfold shutil_copy
  split
  · exact ⟨es, hd⟩
  · exact ⟨es, hd⟩
  · split <;> (try split) <;> first | exact ⟨es, hd⟩ | exact hw _ _
  · split <;> first | exact ⟨es, hd⟩ | exact hw _ _

theorem isDirAt_fetchSomeGo (src sp : List String) (items : List PyVal) :
    ∀ (root : FSNode) (es : Entries), lookup root sp = some (.dir es) →
      isDirAt (fetchSomeGo src sp items root).1 sp := by
  induction items with
  | nil => intro root es hd; exact ⟨es, hd⟩
  | cons x xs ih =>
    intro root es hd
    cases x with
    | pystr s =>
      have hpres := isDirAt_shutil_copy root (ospathJoin src s) sp hd
      cases hres : shutil_copy root (ospathJoin src s) sp with
      | mk r2 err =>
        rw [hres] at hpres
        cases err with
        | none =>
          obtain ⟨es2, h2⟩ := hpres
          have hgo : fetchSomeGo src sp (.pystr s :: xs) root
              = fetchSomeGo src sp xs r2 := by
            simp [fetchSomeGo, hres]
          rw [hgo]
          exact ih r2 es2 h2
        | some e =>
          have hgo : fetchSomeGo src sp (.pystr s :: xs) root = (r2, some e) := by
            simp [fetchSomeGo, hres]
          rw [hgo]
          exact hpres
    | pyint n => exact ⟨es, hd⟩
    | pylist xs2 => exact ⟨es, hd⟩

theorem isDirAt_fetch_all_from (root : FSNode) (sp src : List String) {es : Entries}
    (hd : lookup root sp = some (.dir es)) :
    isDirAt (fetch_all_from root sp src).1 sp := by
  have hdraw : lookupRaw root (resolvePath sp) = some (.dir es) := hd
  unfold fetch_all_from
  split
  · exact dirAtRaw_modifyAtRaw_here hdraw _ (fun es0 => ⟨_, rfl⟩)
  · exact ⟨es, hd⟩
  · exact ⟨es, hd⟩

theorem isDirAt_remove_tar_archive (root : FSNode) (sp : List String) {es : Entries}
    (hd : lookup root sp = some (.dir es)) :
    isDirAt (remove_tar_archive root sp).1 sp := by
  have hdraw : lookupRaw root (resolvePath sp) = some (.dir es) := hd
  unfold remove_tar_archive
  rw [hd]
  exact dirAtRaw_modifyAtRaw_here hdraw _ (fun es0 => ⟨_, rfl⟩)

theorem dirAtRaw_writeInDirRaw_guard :
    ∀ (op : List String) (root : FSNode) (sp : List String) (nm : String) (m : FSNode),
      (∀ zs, lookupRaw root (op ++ [nm]) ≠ some (.dir zs)) →
      (∃ es, lookupRaw root sp = some (.dir es)) →
      ∃ es2, lookupRaw (writeInDirRaw root op nm m) sp = some (.dir es2) := by
  intro op
  induction op with
  | nil =>
    intro root sp nm m hguard hdir
    obtain ⟨es, hsp⟩ := hdir
    cases root with
    | file c => exact ⟨es, hsp⟩
    | symlink t => exact ⟨es, hsp⟩
    | tar tes => exact ⟨es, hsp⟩
    | dir oes =>
      show ∃ es2, lookupRaw (FSNode.dir (upsert oes nm m)) sp = some (.dir es2)
      cases sp with
      | nil => exact ⟨upsert oes nm m, lookupRaw_nil _⟩
      | cons c sp2 =>
        rcases lookupRaw_cons_some hsp with ⟨oes2, m0, hw, hf, hlm⟩
        cases hw
        by_cases hc : c = nm
        · subst hc
          have hg : lookupRaw (FSNode.dir oes) ([] ++ [c]) = some m0 := by
            rw [List.nil_append, lookupRaw_single]
            exact hf
          cases m0 with
          | dir zs => exact absurd hg (hguard zs)
          | file c2 => cases sp2 with
            | nil => rw [lookupRaw_nil] at hlm; cases hlm
            | cons c3 cs3 => cases hlm
          | symlink t2 => cases sp2 with
            | nil => rw [lookupRaw_nil] at hlm; cases hlm
            | cons c3 cs3 => cases hlm
          | tar tes2 => cases sp2 with
            | nil => rw [lookupRaw_nil] at hlm; cases hlm
            | cons c3 cs3 => cases hlm
        · refine ⟨es, ?_⟩
          rw [lookupRaw_cons_dir, assocFind_upsert_ne _ _ hc, hf]
          exact hlm
  | cons a op2 ih =>
    intro root sp nm m hguard hdir
    obtain ⟨es, hsp⟩ := hdir
    cases root with
    | file c => exact ⟨es, hsp⟩
    | symlink t => exact ⟨es, hsp⟩
    | tar tes => exact ⟨es, hsp⟩
    | dir es0 =>
      show ∃ es2, lookupRaw (modifyAtRaw (FSNode.dir es0) (a :: op2)
        (fun n => match n with
          | FSNode.dir es3 => FSNode.dir (upsert es3 nm m)
          | other => other)) sp = some (.dir es2)
      rw [modifyAtRaw_cons_dir]
      cases sp with
      | nil => exact ⟨_, lookupRaw_nil _⟩
      | cons c sp2 =>
        rcases lookupRaw_cons_some hsp with ⟨es1, m0, hw, hf, hlm⟩
        cases hw
        by_cases hc : c = a
        · subst hc
          have hguard2 : ∀ zs, lookupRaw m0 (op2 ++ [nm]) ≠ some (.dir zs) := by
            intro zs hz
            refine hguard zs ?_
            rw [List.cons_append, lookupRaw_cons_dir, hf]
            simpa using hz
          have hih := ih m0 sp2 nm m hguard2 ⟨es, hlm⟩
          obtain ⟨es2, h2⟩ := hih
          refine ⟨es2, ?_⟩
          rw [lookupRaw_cons_dir, assocFind_map_upd, hf]
          simpa [writeInDirRaw] using h2
        · refine ⟨es, ?_⟩
          rw [lookupRaw_cons_dir, assocFind_map_upd_ne _ _ hc, hf]
          exact hlm

theorem isDirAt_create_tar_archive (now : Timestamp) (root : FSNode) (sp : List String)
    (od : Option (List String)) (root2 : FSNode) (ap : List String) {es : Entries}
    (hd : lookup root sp = some (.dir es))
    (hsucc : create_tar_archive now root sp od = some (root2, ap)) :
    isDirAt root2 sp := by
  have hres : resolvePath ((od.getD sp) ++ [archiveName now sp])
      = resolvePath (od.getD sp) ++ [archiveName now sp] :=
    resolvePath_append_single _ _ (archiveName_ne_dots now sp).1
      (archiveName_ne_dots now sp).2
  have hmain : ∀ (hne : ∀ zs, lookup root (od.getD sp ++ [archiveName now sp])
        ≠ some (.dir zs)),
      root2 = writeInDir root (od.getD sp) (archiveName now sp)
        (.tar [(arcRootName now sp, .dir es)]) → isDirAt root2 sp := by
    intro hne h2
    subst h2
    have hg : ∀ zs, lookupRaw root (resolvePath (od.getD sp) ++ [archiveName now sp])
        ≠ some (.dir zs) := by
      intro zs hz
      refine hne zs ?_
      show lookupRaw root (resolvePath _) = _
      rw [hres]
      exact hz
    exact dirAtRaw_writeInDirRaw_guard (resolvePath (od.getD sp)) root (resolvePath sp)
      _ _ hg ⟨es, hd⟩
  simp only [create_tar_archive] at hsucc
  rw [hd] at hsucc
  cases hout : lookup root (od.getD sp) with
  | none => rw [hout] at hsucc; cases hsucc
  | some y =>
    rw [hout] at hsucc
    cases y with
    | file c => cases hsucc
    | symlink t => cases hsucc
    | tar tes => cases hsucc
    | dir oes =>
      cases hin : lookup root (od.getD sp ++ [archiveName now sp]) with
      | none =>
        rw [hin] at hsucc
        rw [Option.some.injEq, Prod.mk.injEq] at hsucc
        exact hmain (fun zs hz => by rw [hin] at hz; cases hz) hsucc.1.symm
      | some z =>
        rw [hin] at hsucc
        cases z with
        | dir zs => cases hsucc
        | file c =>
          rw [Option.some.injEq, Prod.mk.injEq] at hsucc
          exact hmain (fun zs hz => by rw [hin] at hz; cases hz) hsucc.1.symm
        | symlink t =>
          rw [Option.some.injEq, Prod.mk.injEq] at hsucc
          exact hmain (fun zs hz => by rw [hin] at hz; cases hz) hsucc.1.symm
        | tar tes =>
          rw [Option.some.injEq, Prod.mk.injEq] at hsucc
          exact hmain (fun zs hz => by rw [hin] at hz; cases hz) hsucc.1.symm

/-- C7 (amended): no operation of the system deletes the Directory
itself: after empty_all, after empty_some on relative paths whose
components contain no "." or ".." (the kernel resolves those against
the tree, so a double-dot path names the directory itself or an
ancestor) on a tree free of symbolic links (through which remove_content
would empty a target outside the named path), after fetch_some_from,
fetch_all_from, remove_tar_archive, and after a successful
create_tar_archive, a directory still exists at the instance path; only
contents or archive files are removed. -/
theorem c7_directory_never_deleted (root : FSNode) (sp : List String) (es : Entries)
    (hd : lookup root sp = some (.dir es)) :
    (∀ (prot : List String → Bool) (content : PyVal),
      symlinkFree root = true →
      (∀ items, pyIter content = some items →
        ∀ s, PyVal.pystr s ∈ items → startsWithSlash s = false ∧
          ∀ c0 ∈ splitSlash s, c0 ≠ "." ∧ c0 ≠ "..") →
      isDirAt (empty_some prot root sp content).1 sp) ∧
    (∀ prot : List String → Bool, isDirAt (empty_all prot root sp).1 sp) ∧
    (∀ (src : List String) (content : PyVal),
      isDirAt (fetch_some_from root sp src content).1 sp) ∧
    (∀ src : List String, isDirAt (fetch_all_from root sp src).1 sp) ∧
    (∀ (now : Timestamp) (od : Option (List String)) (root2 : FSNode) (ap : List String),
      create_tar_archive now root sp od = some (root2, ap) → isDirAt root2 sp) ∧
    isDirAt (remove_tar_archive root sp).1 sp := by
  refine ⟨?_, ?_, ?_, ?_, ?_, ?_⟩
  · intro prot content hsf hrel
    unfold empty_some
    cases hit : pyIter content with
    | none => exact ⟨es, hd⟩
    | some items =>
      exact (emptySomeGo_preserves prot sp items root es hsf hd (hrel items hit)).2
  · intro prot
    show isDirAt (remove_content prot root sp).1 sp
    rw [remove_content_of_dir hd]
    exact dirAtRaw_modifyAtRaw_here
      (show lookupRaw root (resolvePath sp) = some (.dir es) from hd) _
      (fun es0 => ⟨_, rfl⟩)
  · intro src content
    unfold fetch_some_from
    cases hit : pyIter content with
    | none => exact ⟨es, hd⟩
    | some items => exact isDirAt_fetchSomeGo src sp items root es hd
  · intro src
    exact isDirAt_fetch_all_from root sp src hd
  · intro now od root2 ap hsucc
    exact isDirAt_create_tar_archive now root sp od root2 ap hd hsucc
  · exact isDirAt_remove_tar_archive root sp hd

/-- C7 (counterexample to the claim as stated): empty_some on the relative
path ".." succeeds without error and deletes the Directory itself: the
kernel resolves "<abspath>/.." to the parent, whose listing contains the
directory, and remove_content unlinks every entry of the parent. -/
theorem c7_counterexample :
    (empty_some (fun _ => false)
        (.dir [("home", .dir [("d", .dir [("x", .file "1")])])])
        ["home", "d"] (.pylist [.pystr ".."])).2 = none ∧
    lookup (.dir [("home", .dir [("d", .dir [("x", .file "1")])])]) ["home", "d"]
      = some (.dir [("x", .file "1")]) ∧
    lookup (empty_some (fun _ => false)
        (.dir [("home", .dir [("d", .dir [("x", .file "1")])])])
        ["home", "d"] (.pylist [.pystr ".."])).1 ["home", "d"] = none :=
  ⟨rfl, rfl, rfl⟩

/-- Witness for C1 at a concrete directory with a file p and a file q. -/
theorem c1_empty_some_selective_witness :
    empty_some (fun _ => false)
        (.dir [("d", .dir [("p", .file "1"), ("q", .file "2")])])
        ["d"] (.pylist [.pystr "p"])
      = (modifyAt (.dir [("d", .dir [("p", .file "1"), ("q", .file "2")])])
          ["d"] (fun n => eraseNode n "p"), none) ∧
    lookup (modifyAt (.dir [("d", .dir [("p", .file "1"), ("q", .file "2")])])
        ["d"] (fun n => eraseNode n "p")) (["d"] ++ ["p"]) = none ∧
    lookup (modifyAt (.dir [("d", .dir [("p", .file "1"), ("q", .file "2")])])
        ["d"] (fun n => eraseNode n "p")) (["d"] ++ ["q"]) = some (.file "2") := by
  have h := c1_empty_some_selective
    (.dir [("d", .dir [("p", .file "1"), ("q", .file "2")])]) ["d"]
    [("p", .file "1"), ("q", .file "2")] "p" "q" (.file "1") (.file "2")
    rfl rfl rfl rfl (by decide) (by decide) (by decide) (by decide) (by decide)
    rfl rfl
  exact h.2.1 "1" rfl

/-- Witness for C2 at a concrete directory and timestamp, with the default
output directory. -/
theorem c2_create_tar_archive_witness :
    create_tar_archive ⟨2020, 4, 21, 13, 20, 52⟩
        (.dir [("d", .dir [("n", .file "z")])]) ["d"] none
      = some (writeInDir (.dir [("d", .dir [("n", .file "z")])]) ["d"]
                (archiveName ⟨2020, 4, 21, 13, 20, 52⟩ ["d"])
                (.tar [(arcRootName ⟨2020, 4, 21, 13, 20, 52⟩ ["d"],
                        .dir [("n", .file "z")])]),
              ["d"] ++ [archiveName ⟨2020, 4, 21, 13, 20, 52⟩ ["d"]]) ∧
    timestampFmt ⟨2020, 4, 21, 13, 20, 52⟩ = "2020-04-21-132052" := by
  have h := c2_create_tar_archive ⟨2020, 4, 21, 13, 20, 52⟩
    (.dir [("d", .dir [("n", .file "z")])]) ["d"] none
    [("n", .file "z")] [("n", .file "z")] rfl rfl
    (fun zs hz => by
      rw [show assocFind [("n", FSNode.file "z")]
          (archiveName ⟨2020, 4, 21, 13, 20, 52⟩ ["d"]) = none from rfl] at hz
      cases hz)
  exact ⟨h.1, h.2.2.2⟩

/-- Witness for C5 at a concrete directory holding a file and a
subdirectory, with nothing protected. -/
theorem c5_empty_all_complete_witness :
    (empty_all (fun _ => false)
        (.dir [("d", .dir [("x", .file "1"), ("s", .dir [("y", .file "2")])])])
        ["d"]).2 = none ∧
    lookup (empty_all (fun _ => false)
        (.dir [("d", .dir [("x", .file "1"), ("s", .dir [("y", .file "2")])])])
        ["d"]).1 ["d"] = some (.dir []) := by
  exact c5_empty_all_complete (fun _ => false)
    (.dir [("d", .dir [("x", .file "1"), ("s", .dir [("y", .file "2")])])])
    ["d"] [("x", .file "1"), ("s", .dir [("y", .file "2")])] (fun _ => rfl) rfl

/-- Witness for C6 at a concrete directory whose middle entry b is
protected: the call still succeeds and the entry c listed after b is
still removed. -/
theorem c6_remove_content_partial_failure_witness :
    (remove_content (fun q => decide (q = ["d", "b"]))
        (.dir [("d", .dir [("a", .file "1"), ("b", .file "2"), ("c", .file "3")])])
        ["d"]).2 = none ∧
    lookup (remove_content (fun q => decide (q = ["d", "b"]))
        (.dir [("d", .dir [("a", .file "1"), ("b", .file "2"), ("c", .file "3")])])
        ["d"]).1 (["d"] ++ ["c"]) = none := by
  have h := c6_remove_content_partial_failure (fun q => decide (q = ["d", "b"]))
    (.dir [("d", .dir [("a", .file "1"), ("b", .file "2"), ("c", .file "3")])])
    ["d"] [("a", .file "1"), ("b", .file "2"), ("c", .file "3")] rfl
  exact ⟨h.1, h.2 ("c", .file "3") (by simp) (by decide) (by decide) rfl⟩

/-- Witness for C7 at a concrete symlink-free directory: the directory
still exists after empty_some on a plain relative path, after empty_all
and after remove_tar_archive. -/
theorem c7_directory_never_deleted_witness :
    isDirAt (empty_some (fun _ => false) (.dir [("d", .dir [("x", .file "1")])])
        ["d"] (.pylist [.pystr "x"])).1 ["d"] ∧
    isDirAt (empty_all (fun _ => false) (.dir [("d", .dir [("x", .file "1")])]) ["d"]).1
      ["d"] ∧
    isDirAt (remove_tar_archive (.dir [("d", .dir [("x", .file "1")])]) ["d"]).1
      ["d"] := by
  have h := c7_directory_never_deleted (.dir [("d", .dir [("x", .file "1")])])
    ["d"] [("x", .file "1")] rfl
  refine ⟨?_, h.2.1 (fun _ => false), h.2.2.2.2.2⟩
  exact h.1 (fun _ => false) (.pylist [.pystr "x"]) rfl
    (by
      intro items hit s hs
      rw [show pyIter (PyVal.pylist [PyVal.pystr "x"]) = some [PyVal.pystr "x"] from rfl,
        Option.some.injEq] at hit
      subst hit
      rw [List.mem_singleton] at hs
      cases hs
      exact ⟨rfl, by decide⟩)

/-- Witness for C8 at two concrete authors sharing name and
organization. -/
theorem c8_author_unique_constraint_witness :
    insertAuthor [⟨1, "Ada", "ada@a.example", "Org"⟩]
        ⟨2, "Ada", "ada@b.example", "Org"⟩
      = .error .uniqueViolation := by
  exact c8_author_unique_constraint [] [⟨1, "Ada", "ada@a.example", "Org"⟩]
    ⟨1, "Ada", "ada@a.example", "Org"⟩ ⟨2, "Ada", "ada@b.example", "Org"⟩
    rfl rfl rfl

/-- Witness for C9 at a concrete directory: the first path is missing, so
the call fails with FileNotFoundError, the filesystem is unchanged and the
existing path q listed afterwards is never processed. -/
theorem c9_empty_some_missing_path_witness :
    empty_some (fun _ => false) (.dir [("d", .dir [("q", .file "1")])]) ["d"]
        (.pylist ([] ++ .pystr "nope" :: [.pystr "q"]))
      = (.dir [("d", .dir [("q", .file "1")])], some .fileNotFound) := by
  exact c9_empty_some_missing_path (fun _ => false) ["d"] [] "nope" [.pystr "q"]
    (.dir [("d", .dir [("q", .file "1")])])
    (.dir [("d", .dir [("q", .file "1")])]) rfl rfl

/-- Witness for C10 at a concrete directory: the existing path a is
deleted before the integer element raises the ValueError. -/
theorem c10_empty_some_mutation_before_error_witness :
    empty_some (fun _ => false)
        (.dir [("d", .dir [("a", .file "1"), ("z", .file "2")])])
        ["d"] (.pylist [.pystr "a", .pyint 7])
      = (modifyAt (.dir [("d", .dir [("a", .file "1"), ("z", .file "2")])])
           ["d"] (fun n => eraseNode n "a"), some .valueError) ∧
    lookup (modifyAt (.dir [("d", .dir [("a", .file "1"), ("z", .file "2")])])
        ["d"] (fun n => eraseNode n "a")) (["d"] ++ ["a"]) = none := by
  exact c10_empty_some_mutation_before_error (fun _ => false)
    (.dir [("d", .dir [("a", .file "1"), ("z", .file "2")])])
    ["d"] "a" 7 [("a", .file "1"), ("z", .file "2")] "1" rfl rfl rfl rfl rfl

end ImageArchive
